import Mathlib

/-!
Verification of the RAT24F lexical scanner (`lexer.py`).

The source text is embedded as a `List Char`; Python string indexing,
slicing and `str.find` are modelled by `List.get?`, `List.take`/`List.drop`
and an explicit first-occurrence search.  The character-class predicates
`str.isspace`, `str.isalpha`, `str.isalnum`, `str.isdigit` are modelled by
the corresponding ASCII `Char` predicates, which agree with Python on the
ASCII inputs the scanner's tables are built from.  The `while` loop of
`lexer` is modelled by a single-iteration step function `lexStep` driven by
a fuel-indexed loop `lexerLoop`; running out of fuel (`LexResult.outOfFuel`
at every fuel) models non-termination of the Python loop, and the two ways
the Python code can raise (`ValueError` for an unterminated comment, and an
`IndexError` from `source_code[position+1]` when a final `[` is examined)
are modelled by the two `LexError` constructors.
-/

/-- List of keywords for RAT24F (`keywords` in lexer.py). -/
def keywords : List (List Char) :=
  ["integer", "if", "else", "fi", "while", "return", "get", "put"].map String.toList

/-- Operator lexemes (`operators` in lexer.py). -/
def operators : List (List Char) :=
  [['+'], ['-'], ['*'], ['/'], ['='], ['<'], ['>'],
   ['<', '='], ['>', '='], ['=', '='], ['!', '=']]

/-- Separator lexemes (`separators` in lexer.py); the fourth and fifth
entries are the opening and closing curly-brace characters. -/
def separators : List (List Char) :=
  [['('], [')'], ['\x7b'], ['\x7d'], [','], [';']]

/-- `is_letter` in lexer.py: `char.isalpha()`. -/
def is_letter (char : Char) : Bool := char.isAlpha

/-- `is_digit` in lexer.py: `char.isdigit()`. -/
def is_digit (char : Char) : Bool := char.isDigit

/-- Index of the first occurrence of the two-character sequence `a, b` in a
list, as Python `str.find` computes it for a two-character needle: the least
`i` with `l.get? i = some a` and `l.get? (i+1) = some b`, `none` if there is
no occurrence. -/
def findPair (a b : Char) : List Char → Option Nat
  | [] => none
  | [_] => none
  | x :: y :: rest =>
    if x = a ∧ y = b then some 0
    else (findPair a b (y :: rest)).map (· + 1)

/-- `handle_comment` in lexer.py: `source_code.find("*]", position)` searches
from `position` (the index of the `[` of the opening marker); `none` models
the raised `ValueError("Unterminated comment block")`, and on success the
returned cursor is `end_pos + 2`, one past the closing marker. -/
def handle_comment (source_code : List Char) (position : Nat) : Option Nat :=
  match findPair '*' ']' (source_code.drop position) with
  | none => none
  | some k => some (position + k + 2)

/-- The character class consumed by `get_identifier`'s loop:
`source_code[position].isalnum() or source_code[position] == '_'`. -/
def idChar (c : Char) : Bool := c.isAlphanum || c = '_'

/-- `get_identifier` in lexer.py: the maximal run of alphanumeric-or-underscore
characters starting at `position`. -/
def get_identifier (source_code : List Char) (position : Nat) : List Char :=
  (source_code.drop position).takeWhile idChar

/-- `get_number` in lexer.py: the maximal digit run, then, when the next
character is a decimal point, the point and the following maximal digit run;
the boolean is the `is_real` flag. -/
def get_number (source_code : List Char) (position : Nat) : List Char × Bool :=
  let intPart := (source_code.drop position).takeWhile is_digit
  if (source_code.drop (position + intPart.length)).head? = some '.' then
    (intPart ++ '.' :: (source_code.drop (position + intPart.length + 1)).takeWhile is_digit,
     true)
  else
    (intPart, false)

/-- `get_operator` in lexer.py: the two-character slice at `position` when it
is in `operators`, else the one-character slice when it is in `operators`,
else the empty string. -/
def get_operator (source_code : List Char) (position : Nat) : List Char :=
  if (source_code.drop position).take 2 ∈ operators then (source_code.drop position).take 2
  else if (source_code.drop position).take 1 ∈ operators then (source_code.drop position).take 1
  else []

/-- Token categories: the first components of the pairs `lexer` appends. -/
inductive Category
  | keyword
  | identifier
  | integer
  | real
  | operator
  | separator
deriving DecidableEq

/-- A `(category, lexeme)` pair as appended to `tokens` by `lexer`. -/
structure Token where
  category : Category
  lexeme : List Char
deriving DecidableEq

/-- The two exceptions the `lexer` body can raise: the explicit
`ValueError("Unterminated comment block")` of `handle_comment`, and the
`IndexError` from evaluating `source_code[position+1]` when `position + 1`
is out of range. -/
inductive LexError
  | unterminatedComment
  | indexError
deriving DecidableEq

/-- Outcome of one iteration of the `while` loop of `lexer`: continue at a
new state, exit the loop normally, or raise. -/
inductive StepOut
  | next (position : Nat) (tokens : List Token)
  | done (tokens : List Token)
  | fail (e : LexError)
deriving DecidableEq

/-- One iteration of the `while position < len(source_code)` loop of `lexer`,
with its branches in source order: whitespace, comment (where Python first
evaluates `source_code[position+1]`, raising `IndexError` when out of range),
identifier/keyword, number, operator, separator.  A character matching no
branch leaves the state unchanged, exactly as the Python loop does. -/
def lexStep (source_code : List Char) (position : Nat) (tokens : List Token) : StepOut :=
  match source_code[position]? with
  | none => .done tokens
  | some char =>
    if char.isWhitespace then
      .next (position + 1) tokens
    else if char = '[' ∧ source_code[position + 1]? = none then
      .fail .indexError
    else if char = '[' ∧ source_code[position + 1]? = some '*' then
      match handle_comment source_code position with
      | none => .fail .unterminatedComment
      | some newPos => .next newPos tokens
    else if is_letter char then
      .next (position + (get_identifier source_code position).length)
        (tokens ++ [⟨if get_identifier source_code position ∈ keywords then .keyword
                     else .identifier,
                    get_identifier source_code position⟩])
    else if is_digit char then
      .next (position + (get_number source_code position).1.length)
        (tokens ++ [⟨if (get_number source_code position).2 then .real else .integer,
                    (get_number source_code position).1⟩])
    else if operators.any (fun op => op.head? == some char) then
      .next (position + (get_operator source_code position).length)
        (tokens ++ [⟨.operator, get_operator source_code position⟩])
    else if [char] ∈ separators then
      .next (position + 1) (tokens ++ [⟨.separator, [char]⟩])
    else
      .next position tokens

/-- Result of running the scanning loop with a given amount of fuel;
`outOfFuel` at every fuel amount models non-termination. -/
inductive LexResult
  | ok (tokens : List Token)
  | fail (e : LexError)
  | outOfFuel
deriving DecidableEq

/-- The `while` loop of `lexer`, one `lexStep` per unit of fuel. -/
def lexerLoop (source_code : List Char) : Nat → Nat → List Token → LexResult
  | 0, _, _ => .outOfFuel
  | fuel + 1, position, tokens =>
    match lexStep source_code position tokens with
    | .next p t => lexerLoop source_code fuel p t
    | .done t => .ok t
    | .fail e => .fail e

/-- `lexer` in lexer.py: run the loop from position 0 with no tokens. -/
def lexer (source_code : List Char) (fuel : Nat) : LexResult :=
  lexerLoop source_code fuel 0 []

/-- The scan of a source text terminates: some amount of fuel suffices for
the loop to exit (normally or by raising). -/
def Terminates (source_code : List Char) : Prop :=
  ∃ fuel, lexer source_code fuel ≠ .outOfFuel

/-- Concatenation, in order, of the lexemes of a token sequence. -/
def concatLexemes : List Token → List Char
  | [] => []
  | t :: ts => t.lexeme ++ concatLexemes ts

/-- A text contains a comment marker when the two-character sequence of an
opening marker or of a closing marker occurs in it. -/
def hasCommentMarker (source_code : List Char) : Bool :=
  (findPair '[' '*' source_code).isSome || (findPair '*' ']' source_code).isSome

/-- Characters for which the scanning loop has a productive branch: the
whitespace skip, the identifier and number branches, the seven operator
heads that name complete one-character operators, and the separators. -/
def goodChar (c : Char) : Bool :=
  c.isWhitespace || c.isAlpha || c.isDigit ||
  ['+', '-', '*', '/', '=', '<', '>'].contains c ||
  ['(', ')', '\x7b', '\x7d', ',', ';'].contains c

/-- A character satisfying a Boolean predicate differs from one falsifying it. -/
lemma pred_ne {p : Char → Bool} {c d : Char} (h : p c = true) (hd : p d = false) : c ≠ d := by
  intro he; rw [he, hd] at h; cases h

/-- The four characters of the modelled whitespace class. -/
lemma ws_cases (c : Char) (h : c.isWhitespace = true) :
    c = ' ' ∨ c = '\t' ∨ c = '\x0d' ∨ c = '\n' := by
  simp only [Char.isWhitespace, Bool.or_eq_true, decide_eq_true_eq] at h
  tauto

lemma not_ws_of_idChar (c : Char) (h : idChar c = true) : c.isWhitespace = false := by
  cases hw : c.isWhitespace with
  | false => rfl
  | true =>
    rcases ws_cases c hw with h1 | h1 | h1 | h1 <;> subst h1 <;> exact absurd h (by decide)

lemma idChar_of_letter (c : Char) (h : is_letter c = true) : idChar c = true := by
  simp only [is_letter] at h
  simp [idChar, Char.isAlphanum, h]

lemma idChar_of_digit (c : Char) (h : is_digit c = true) : idChar c = true := by
  simp only [is_digit] at h
  simp [idChar, Char.isAlphanum, h]

lemma not_ws_of_letter (c : Char) (h : is_letter c = true) : c.isWhitespace = false :=
  not_ws_of_idChar c (idChar_of_letter c h)

lemma not_ws_of_digit (c : Char) (h : is_digit c = true) : c.isWhitespace = false :=
  not_ws_of_idChar c (idChar_of_digit c h)

/-- Digits are not letters: the ASCII code ranges are disjoint. -/
lemma not_alpha_of_digit (c : Char) (h : is_digit c = true) : is_letter c = false := by
  simp only [is_digit, Char.isDigit, Bool.and_eq_true, decide_eq_true_eq] at h
  obtain ⟨h1, h2⟩ := h
  have h65 : ¬ (c.val ≥ 65) := fun hc => absurd (UInt32.le_trans hc h2) (by decide)
  have h97 : ¬ (c.val ≥ 97) := fun hc => absurd (UInt32.le_trans hc h2) (by decide)
  simp [is_letter, Char.isAlpha, Char.isUpper, Char.isLower, h65, h97]

/-- Dropping to a position holding `c` exposes `c` as the head. -/
lemma drop_cons_of_get {l : List Char} {p : Nat} {c : Char} (h : l[p]? = some c) :
    l.drop p = c :: l.drop (p + 1) := by
  induction l generalizing p with
  | nil => simp at h
  | cons x tl ih =>
    cases p with
    | zero => simp only [List.getElem?_cons_zero, Option.some.injEq] at h; cases h; rfl
    | succ n =>
      simp only [List.getElem?_cons_succ] at h
      simpa using ih h

lemma drop_length_takeWhile (q : Char → Bool) (l : List Char) :
    l.drop (l.takeWhile q).length = l.dropWhile q := by
  induction l with
  | nil => rfl
  | cons c tl ih =>
    cases hq : q c with
    | true =>
      simpa [List.takeWhile_cons_of_pos hq, List.dropWhile_cons_of_pos hq] using ih
    | false =>
      have hq' : ¬ (q c = true) := by simp [hq]
      simp [List.takeWhile_cons_of_neg hq', List.dropWhile_cons_of_neg hq']

/-- The suffix at `p` splits as its `takeWhile` prefix and the suffix past it. -/
lemma drop_decomp_takeWhile (q : Char → Bool) (s : List Char) (p : Nat) :
    s.drop p = (s.drop p).takeWhile q ++ s.drop (p + ((s.drop p).takeWhile q).length) := by
  conv_lhs => rw [← List.takeWhile_append_dropWhile q (s.drop p)]
  rw [← List.drop_drop, drop_length_takeWhile]

lemma take_append_drop_length (l : List Char) (n : Nat) :
    l.take n ++ l.drop (l.take n).length = l := by
  rcases le_total n l.length with h | h
  · rw [List.length_take, min_eq_left h, List.take_append_drop]
  · rw [List.length_take, min_eq_right h, List.drop_length, List.append_nil,
      List.take_of_length_le h]

/-- The suffix at `p` splits as its `take n` prefix and the suffix past it. -/
lemma drop_decomp_take (s : List Char) (p n : Nat) :
    s.drop p = (s.drop p).take n ++ s.drop (p + ((s.drop p).take n).length) := by
  conv_lhs => rw [← take_append_drop_length (s.drop p) n]
  rw [← List.drop_drop]

lemma filter_nonws (L : List Char) (h : ∀ c ∈ L, c.isWhitespace = false) :
    L.filter (fun c => !c.isWhitespace) = L :=
  List.filter_eq_self.mpr (fun a ha => by simp [h a ha])

lemma concat_extend (cat : Category) (L rest : List Char) (toks : List Token)
    (hL : ∀ c ∈ L, c.isWhitespace = false)
    (hc : concatLexemes toks = rest.filter (fun c => !c.isWhitespace)) :
    concatLexemes (⟨cat, L⟩ :: toks) = (L ++ rest).filter (fun c => !c.isWhitespace) := by
  simp [concatLexemes, List.filter_append, filter_nonws L hL, hc]

lemma handle_comment_eq_some {s : List Char} {p np : Nat}
    (h : handle_comment s p = some np) :
    ∃ k, findPair '*' ']' (s.drop p) = some k ∧ np = p + k + 2 := by
  unfold handle_comment at h
  cases hf : findPair '*' ']' (s.drop p) <;> rw [hf] at h <;> simp_all

lemma handle_comment_eq_none {s : List Char} {p : Nat} (h : handle_comment s p = none) :
    findPair '*' ']' (s.drop p) = none := by
  unfold handle_comment at h
  cases hf : findPair '*' ']' (s.drop p) with
  | none => rfl
  | some k => rw [hf] at h; exact Option.noConfusion h

lemma lexStep_done {s : List Char} {p : Nat} (t : List Token) (h : s[p]? = none) :
    lexStep s p t = .done t := by
  simp [lexStep, h]

lemma lexStep_ws {s : List Char} {p : Nat} {t : List Token} {c : Char}
    (h : s[p]? = some c) (hw : c.isWhitespace = true) :
    lexStep s p t = .next (p + 1) t := by
  simp [lexStep, h, hw]

lemma lexStep_indexErr {s : List Char} {p : Nat} {t : List Token}
    (h : s[p]? = some '[') (h2 : s[p + 1]? = none) :
    lexStep s p t = .fail .indexError := by
  have hw : ('[' : Char).isWhitespace = false := by decide
  simp [lexStep, h, h2, hw]

lemma lexStep_comment_found {s : List Char} {p : Nat} {t : List Token} {k : Nat}
    (h : s[p]? = some '[') (h2 : s[p + 1]? = some '*')
    (hf : findPair '*' ']' (s.drop p) = some k) :
    lexStep s p t = .next (p + k + 2) t := by
  have hw : ('[' : Char).isWhitespace = false := by decide
  simp [lexStep, h, h2, hw, handle_comment, hf]

lemma lexStep_comment_unterminated {s : List Char} {p : Nat} {t : List Token}
    (h : s[p]? = some '[') (h2 : s[p + 1]? = some '*')
    (hf : findPair '*' ']' (s.drop p) = none) :
    lexStep s p t = .fail .unterminatedComment := by
  have hw : ('[' : Char).isWhitespace = false := by decide
  simp [lexStep, h, h2, hw, handle_comment, hf]

lemma lexStep_letter {s : List Char} {p : Nat} {t : List Token} {c : Char}
    (h : s[p]? = some c) (hl : is_letter c = true) :
    lexStep s p t = .next (p + (get_identifier s p).length)
      (t ++ [⟨if get_identifier s p ∈ keywords then .keyword else .identifier,
              get_identifier s p⟩]) := by
  have hw : c.isWhitespace = false := not_ws_of_letter c hl
  have hbr : c ≠ '[' := pred_ne hl (by decide)
  simp [lexStep, h, hw, hbr, hl]

lemma lexStep_digit {s : List Char} {p : Nat} {t : List Token} {c : Char}
    (h : s[p]? = some c) (hd : is_digit c = true) :
    lexStep s p t = .next (p + (get_number s p).1.length)
      (t ++ [⟨if (get_number s p).2 then .real else .integer, (get_number s p).1⟩]) := by
  have hw : c.isWhitespace = false := not_ws_of_digit c hd
  have hbr : c ≠ '[' := pred_ne hd (by decide)
  have hl : is_letter c = false := not_alpha_of_digit c hd
  simp [lexStep, h, hw, hbr, hl, hd]

lemma lexStep_op {s : List Char} {p : Nat} {t : List Token} {c : Char}
    (h : s[p]? = some c) (hw : c.isWhitespace = false) (hbr : c ≠ '[')
    (hl : is_letter c = false) (hd : is_digit c = false)
    (hop : operators.any (fun op => op.head? == some c) = true) :
    lexStep s p t = .next (p + (get_operator s p).length)
      (t ++ [⟨.operator, get_operator s p⟩]) := by
  simp [lexStep, h, hw, hbr, hl, hd, hop]

lemma lexStep_sep {s : List Char} {p : Nat} {t : List Token} {c : Char}
    (h : s[p]? = some c) (hw : c.isWhitespace = false) (hbr : c ≠ '[')
    (hl : is_letter c = false) (hd : is_digit c = false)
    (hop : operators.any (fun op => op.head? == some c) = false)
    (hsep : [c] ∈ separators) :
    lexStep s p t = .next (p + 1) (t ++ [⟨.separator, [c]⟩]) := by
  simp [lexStep, h, hw, hbr, hl, hd, hop, hsep]

lemma lexStep_stuck {s : List Char} {p : Nat} {t : List Token} {c : Char}
    (h : s[p]? = some c) (hw : c.isWhitespace = false) (hbr : c ≠ '[')
    (hl : is_letter c = false) (hd : is_digit c = false)
    (hop : operators.any (fun op => op.head? == some c) = false)
    (hsep : ¬ ([c] ∈ separators)) :
    lexStep s p t = .next p t := by
  simp [lexStep, h, hw, hbr, hl, hd, hop, hsep]

lemma lexerLoop_succ_next {s : List Char} {fuel p : Nat} {t : List Token}
    {p' : Nat} {t' : List Token} (h : lexStep s p t = .next p' t') :
    lexerLoop s (fuel + 1) p t = lexerLoop s fuel p' t' := by
  simp [lexerLoop, h]

lemma lexerLoop_succ_done {s : List Char} {fuel p : Nat} {t : List Token}
    (h : s[p]? = none) :
    lexerLoop s (fuel + 1) p t = .ok t := by
  simp [lexerLoop, lexStep_done t h]

lemma lexerLoop_succ_fail {s : List Char} {fuel p : Nat} {t : List Token} {e : LexError}
    (h : lexStep s p t = .fail e) :
    lexerLoop s (fuel + 1) p t = .fail e := by
  simp [lexerLoop, h]

/-- A step exits the loop exactly at end-of-input, returning the tokens as
they stand. -/
lemma lexStep_done_inv {s : List Char} {p : Nat} {t t0 : List Token}
    (h : lexStep s p t = .done t0) : t0 = t ∧ s[p]? = none := by
  cases hget : s[p]? with
  | none =>
    rw [lexStep_done t hget] at h
    simp only [StepOut.done.injEq] at h
    exact ⟨h.symm, rfl⟩
  | some char =>
    exfalso
    simp only [lexStep, hget] at h
    by_cases h1 : char.isWhitespace = true
    · rw [if_pos h1] at h; simp at h
    rw [if_neg h1] at h
    by_cases h2 : char = '[' ∧ s[p + 1]? = none
    · rw [if_pos h2] at h; simp at h
    rw [if_neg h2] at h
    by_cases h3 : char = '[' ∧ s[p + 1]? = some '*'
    · rw [if_pos h3] at h
      cases hh : handle_comment s p <;> rw [hh] at h <;> simp at h
    rw [if_neg h3] at h
    by_cases h4 : is_letter char = true
    · rw [if_pos h4] at h; simp at h
    rw [if_neg h4] at h
    by_cases h5 : is_digit char = true
    · rw [if_pos h5] at h; simp at h
    rw [if_neg h5] at h
    by_cases h6 : operators.any (fun op => op.head? == some char) = true
    · rw [if_pos h6] at h; simp at h
    rw [if_neg h6] at h
    by_cases h7 : [char] ∈ separators
    · rw [if_pos h7] at h; simp at h
    rw [if_neg h7] at h
    simp at h

/-- The only two ways a step can raise, each with the state that produces it. -/
lemma lexStep_fail_inv {s : List Char} {p : Nat} {t : List Token} {e : LexError}
    (h : lexStep s p t = .fail e) :
    (e = .indexError ∧ s[p]? = some '[' ∧ s[p + 1]? = none) ∨
    (e = .unterminatedComment ∧ s[p]? = some '[' ∧ s[p + 1]? = some '*' ∧
      findPair '*' ']' (s.drop p) = none) := by
  cases hget : s[p]? with
  | none => rw [lexStep_done t hget] at h; simp at h
  | some char =>
    simp only [lexStep, hget] at h
    by_cases h1 : char.isWhitespace = true
    · rw [if_pos h1] at h; simp at h
    rw [if_neg h1] at h
    by_cases h2 : char = '[' ∧ s[p + 1]? = none
    · rw [if_pos h2] at h
      simp only [StepOut.fail.injEq] at h
      exact Or.inl ⟨h.symm, by rw [h2.1], h2.2⟩
    rw [if_neg h2] at h
    by_cases h3 : char = '[' ∧ s[p + 1]? = some '*'
    · rw [if_pos h3] at h
      cases hh : handle_comment s p with
      | none =>
        rw [hh] at h
        simp only [StepOut.fail.injEq] at h
        exact Or.inr ⟨h.symm, by rw [h3.1], h3.2, handle_comment_eq_none hh⟩
      | some np => rw [hh] at h; simp at h
    rw [if_neg h3] at h
    by_cases h4 : is_letter char = true
    · rw [if_pos h4] at h; simp at h
    rw [if_neg h4] at h
    by_cases h5 : is_digit char = true
    · rw [if_pos h5] at h; simp at h
    rw [if_neg h5] at h
    by_cases h6 : operators.any (fun op => op.head? == some char) = true
    · rw [if_pos h6] at h; simp at h
    rw [if_neg h6] at h
    by_cases h7 : [char] ∈ separators
    · rw [if_pos h7] at h; simp at h
    rw [if_neg h7] at h
    simp at h

/-- State from which the operator branch appends an empty lexeme and leaves
the cursor where it is: the head character is the first character of some
operator, yet neither slice at the position is in the table (the character
is a bare `!`). -/
def badOp (s : List Char) (p : Nat) : Prop :=
  ∃ c, s[p]? = some c ∧ c.isWhitespace = false ∧ c ≠ '[' ∧ is_letter c = false ∧
    is_digit c = false ∧ operators.any (fun op => op.head? == some c) = true ∧
    get_operator s p = []

lemma badOp_step {s : List Char} {p : Nat} (t : List Token) (hb : badOp s p) :
    lexStep s p t = .next p (t ++ [⟨.operator, []⟩]) := by
  obtain ⟨c, hget, hw, hbr, hl, hd, hop, hgo⟩ := hb
  rw [lexStep_op hget hw hbr hl hd hop, hgo]
  simp

/-- From a `badOp` state the loop spins forever, appending empty operator
tokens and never returning. -/
lemma badOp_loop {s : List Char} {p : Nat} (hb : badOp s p) :
    ∀ (fuel : Nat) (t : List Token), lexerLoop s fuel p t = .outOfFuel := by
  intro fuel
  induction fuel with
  | zero => intro t; rfl
  | succ n ih =>
    intro t
    rw [lexerLoop_succ_next (badOp_step t hb)]
    exact ih _

lemma get_identifier_ne_nil {s : List Char} {p : Nat} {c : Char}
    (hget : s[p]? = some c) (hl : is_letter c = true) :
    get_identifier s p ≠ [] := by
  unfold get_identifier
  rw [drop_cons_of_get hget, List.takeWhile_cons_of_pos (idChar_of_letter c hl)]
  simp

lemma get_number_ne_nil {s : List Char} {p : Nat} {c : Char}
    (hget : s[p]? = some c) (hd : is_digit c = true) :
    (get_number s p).1 ≠ [] := by
  simp only [get_number]
  rw [drop_cons_of_get hget, List.takeWhile_cons_of_pos hd]
  split <;> simp

/-- Shape of a continuing step: the cursor never moves backwards, and the
tokens either grow by a batch of non-empty lexemes (possibly the empty
batch) or by the degenerate empty-operator append from a `badOp` state. -/
lemma lexStep_next_inv {s : List Char} {p : Nat} {t : List Token} {p' : Nat}
    {t' : List Token} (h : lexStep s p t = .next p' t') :
    p ≤ p' ∧
    ((∃ tnew, t' = t ++ tnew ∧ ∀ tok ∈ tnew, tok.lexeme ≠ []) ∨
     (p' = p ∧ t' = t ++ [⟨.operator, []⟩] ∧ badOp s p)) := by
  cases hget : s[p]? with
  | none => rw [lexStep_done t hget] at h; simp at h
  | some char =>
    simp only [lexStep, hget] at h
    by_cases h1 : char.isWhitespace = true
    · rw [if_pos h1] at h
      injection h with hp ht
      exact ⟨by omega, Or.inl ⟨[], by simp [ht], by simp⟩⟩
    rw [if_neg h1] at h
    by_cases h2 : char = '[' ∧ s[p + 1]? = none
    · rw [if_pos h2] at h; simp at h
    rw [if_neg h2] at h
    by_cases h3 : char = '[' ∧ s[p + 1]? = some '*'
    · rw [if_pos h3] at h
      cases hh : handle_comment s p with
      | none => rw [hh] at h; simp at h
      | some np =>
        rw [hh] at h
        injection h with hp ht
        obtain ⟨k, -, hk⟩ := handle_comment_eq_some hh
        exact ⟨by omega, Or.inl ⟨[], by simp [ht], by simp⟩⟩
    rw [if_neg h3] at h
    by_cases h4 : is_letter char = true
    · rw [if_pos h4] at h
      injection h with hp ht
      refine ⟨by omega, Or.inl ⟨[⟨if get_identifier s p ∈ keywords then .keyword
        else .identifier, get_identifier s p⟩], by simp [ht], ?_⟩⟩
      intro tok htok
      simp only [List.mem_singleton] at htok
      subst htok
      exact get_identifier_ne_nil hget h4
    rw [if_neg h4] at h
    by_cases h5 : is_digit char = true
    · rw [if_pos h5] at h
      injection h with hp ht
      refine ⟨by omega, Or.inl ⟨[⟨if (get_number s p).2 then .real else .integer,
        (get_number s p).1⟩], by simp [ht], ?_⟩⟩
      intro tok htok
      simp only [List.mem_singleton] at htok
      subst htok
      exact get_number_ne_nil hget h5
    rw [if_neg h5] at h
    by_cases h6 : operators.any (fun op => op.head? == some char) = true
    · rw [if_pos h6] at h
      by_cases hgo : get_operator s p = []
      · rw [hgo] at h
        injection h with hp ht
        simp only [List.length_nil] at hp
        have hbr : char ≠ '[' := by
          intro he; rw [he] at h6; exact absurd h6 (by decide)
        refine ⟨by omega, Or.inr ⟨by omega, by simp [ht], char, hget, ?_, hbr, ?_, ?_,
          h6, hgo⟩⟩
        · cases hw : char.isWhitespace with
          | false => rfl
          | true => exact absurd hw h1
        · cases hL : is_letter char with
          | false => rfl
          | true => exact absurd hL h4
        · cases hD : is_digit char with
          | false => rfl
          | true => exact absurd hD h5
      · injection h with hp ht
        refine ⟨by omega, Or.inl ⟨[⟨.operator, get_operator s p⟩], by simp [ht], ?_⟩⟩
        intro tok htok
        simp only [List.mem_singleton] at htok
        subst htok
        exact hgo
    rw [if_neg h6] at h
    by_cases h7 : [char] ∈ separators
    · rw [if_pos h7] at h
      injection h with hp ht
      exact ⟨by omega, Or.inl ⟨[⟨.separator, [char]⟩], by simp [ht], by simp⟩⟩
    rw [if_neg h7] at h
    injection h with hp ht
    exact ⟨by omega, Or.inl ⟨[], by simp [ht], by simp⟩⟩

/-- `findPair` finds an occurrence, and the first one. -/
lemma findPair_eq_some {a b : Char} : ∀ {l : List Char} {k : Nat},
    findPair a b l = some k →
    l[k]? = some a ∧ l[k + 1]? = some b ∧
      ∀ j, j < k → ¬ (l[j]? = some a ∧ l[j + 1]? = some b)
  | [], k, h => by simp [findPair] at h
  | [x], k, h => by simp [findPair] at h
  | x :: y :: rest, k, h => by
    rw [findPair] at h
    split_ifs at h with hxy
    · simp only [Option.some.injEq] at h
      subst h
      exact ⟨by simp [hxy.1], by simp [hxy.2], fun j hj => by omega⟩
    · cases hf : findPair a b (y :: rest) with
      | none => rw [hf] at h; simp at h
      | some k0 =>
        rw [hf] at h
        simp only [Option.map_some', Option.some.injEq] at h
        subst h
        obtain ⟨hone, htwo, hmin⟩ := findPair_eq_some hf
        refine ⟨by simpa using hone, by simpa using htwo, ?_⟩
        intro j hj hbad
        cases j with
        | zero =>
          simp only [List.getElem?_cons_zero, Option.some.injEq,
            List.getElem?_cons_succ] at hbad
          exact hxy ⟨hbad.1, by simpa using hbad.2⟩
        | succ j0 =>
          simp only [List.getElem?_cons_succ] at hbad
          exact hmin j0 (by omega) ⟨hbad.1, by simpa using hbad.2⟩

/-- Every token list returned by the loop from an accumulator of non-empty
lexemes again consists of non-empty lexemes. -/
lemma loop_ok_nonempty : ∀ (fuel : Nat) (s : List Char) (p : Nat) (acc toks : List Token),
    lexerLoop s fuel p acc = .ok toks → (∀ t ∈ acc, t.lexeme ≠ []) →
    ∀ t ∈ toks, t.lexeme ≠ []
  | 0, s, p, acc, toks, h, hacc => by simp [lexerLoop] at h
  | fuel + 1, s, p, acc, toks, h, hacc => by
    cases hstep : lexStep s p acc with
    | next p' t' =>
      rw [lexerLoop_succ_next hstep] at h
      obtain ⟨-, hinv⟩ := lexStep_next_inv hstep
      rcases hinv with ⟨tnew, rfl, hnew⟩ | ⟨rfl, rfl, hbad⟩
      · exact loop_ok_nonempty fuel s p' (acc ++ tnew) toks h
          (fun t ht => (List.mem_append.mp ht).elim (hacc t) (hnew t))
      · rw [badOp_loop hbad fuel _] at h
        exact LexResult.noConfusion h
    | done t0 =>
      obtain ⟨rfl, hnone⟩ := lexStep_done_inv hstep
      rw [lexerLoop_succ_done hnone] at h
      injection h with he
      subst he
      exact hacc
    | fail e =>
      rw [lexerLoop_succ_fail hstep] at h
      exact LexResult.noConfusion h

/-- Any unterminated-comment failure of the loop arises from a position, at
or after the current one, holding `[` then `*` with no `*]` at or after it. -/
lemma unterminated_source : ∀ (fuel : Nat) (s : List Char) (p : Nat) (acc : List Token),
    lexerLoop s fuel p acc = .fail .unterminatedComment →
    ∃ q, p ≤ q ∧ s[q]? = some '[' ∧ s[q + 1]? = some '*' ∧
      findPair '*' ']' (s.drop q) = none
  | 0, s, p, acc, h => by simp [lexerLoop] at h
  | fuel + 1, s, p, acc, h => by
    cases hstep : lexStep s p acc with
    | next p' t' =>
      rw [lexerLoop_succ_next hstep] at h
      obtain ⟨q, hq, rest⟩ := unterminated_source fuel s p' t' h
      exact ⟨q, le_trans (lexStep_next_inv hstep).1 hq, rest⟩
    | done t0 =>
      obtain ⟨rfl, hnone⟩ := lexStep_done_inv hstep
      rw [lexerLoop_succ_done hnone] at h
      exact LexResult.noConfusion h
    | fail e =>
      rw [lexerLoop_succ_fail hstep] at h
      injection h with he
      subst he
      rcases lexStep_fail_inv hstep with ⟨hbad, -⟩ | ⟨-, h1, h2, h3⟩
      · exact LexError.noConfusion hbad
      · exact ⟨p, le_refl p, h1, h2, h3⟩

/-- Reaching an opening marker whose suffix holds no `*]` raises the
unterminated-comment error at once. -/
lemma unterminated_trigger (s : List Char) (fuel p : Nat) (acc : List Token)
    (h1 : s[p]? = some '[') (h2 : s[p + 1]? = some '*')
    (h3 : findPair '*' ']' (s.drop p) = none) :
    lexerLoop s (fuel + 1) p acc = .fail .unterminatedComment :=
  lexerLoop_succ_fail (lexStep_comment_unterminated h1 h2 h3)

/-- C8: across every iteration of the scanning loop, for every input text,
the cursor position is monotonically non-decreasing: a continuing step never
moves the position to a smaller offset. -/
theorem C8_cursor_monotone (s : List Char) (p : Nat) (t : List Token)
    (p' : Nat) (t' : List Token) (h : lexStep s p t = .next p' t') : p ≤ p' :=
  (lexStep_next_inv h).1

theorem C8_witness :
    lexStep ['a'] 0 [] = .next 1 [⟨.identifier, ['a']⟩] ∧ (0 : Nat) ≤ 1 :=
  ⟨by decide, C8_cursor_monotone ['a'] 0 [] 1 [⟨.identifier, ['a']⟩] (by decide)⟩

/-- C2: for every input text and fuel, every token of a token sequence
returned by the scan has a non-empty lexeme. -/
theorem C2_lexemes_nonempty (s : List Char) (fuel : Nat) (toks : List Token)
    (h : lexer s fuel = .ok toks) : ∀ t ∈ toks, t.lexeme ≠ [] :=
  loop_ok_nonempty fuel s 0 [] toks h (by simp)

theorem C2_witness : (Token.mk .identifier ['a', 'b']).lexeme ≠ [] :=
  C2_lexemes_nonempty ['a', 'b'] 2 [⟨.identifier, ['a', 'b']⟩] (by decide)
    ⟨.identifier, ['a', 'b']⟩ (by decide)

/-- C3 (corrected): every `UnterminatedComment` failure of the scan comes
from a position holding `[` immediately followed by `*` with no `*]`
occurring at or after that `[`; conversely, reaching such a position raises
`UnterminatedComment` at once.  (Other failure modes exist, so this error is
not the scan's only behaviour besides returning tokens: see the
counterexample, where a final `[` raises an index error.) -/
theorem C3_failure_characterization :
    (∀ (s : List Char) (fuel p : Nat) (acc : List Token),
      lexerLoop s fuel p acc = .fail .unterminatedComment →
      ∃ q, p ≤ q ∧ s[q]? = some '[' ∧ s[q + 1]? = some '*' ∧
        findPair '*' ']' (s.drop q) = none) ∧
    (∀ (s : List Char) (fuel p : Nat) (acc : List Token),
      s[p]? = some '[' → s[p + 1]? = some '*' → findPair '*' ']' (s.drop p) = none →
      lexerLoop s (fuel + 1) p acc = .fail .unterminatedComment) :=
  ⟨fun s fuel p acc h => unterminated_source fuel s p acc h,
   fun s fuel p acc h1 h2 h3 => unterminated_trigger s fuel p acc h1 h2 h3⟩

theorem C3_counterexample :
    lexer ['['] 1 = .fail .indexError ∧
    findPair '[' '*' ['['] = none ∧
    LexError.indexError ≠ LexError.unterminatedComment :=
  ⟨by decide, by decide, by decide⟩

theorem C3_witness :
    (∃ q, 0 ≤ q ∧ ['[', '*', 'x'][q]? = some '[' ∧ ['[', '*', 'x'][q + 1]? = some '*' ∧
      findPair '*' ']' (List.drop q ['[', '*', 'x']) = none) ∧
    lexerLoop ['[', '*', 'x'] (3 + 1) 0 [] = .fail .unterminatedComment :=
  ⟨C3_failure_characterization.1 ['[', '*', 'x'] 1 0 [] (by decide),
   C3_failure_characterization.2 ['[', '*', 'x'] 3 0 [] (by decide) (by decide) (by decide)⟩

/-- C4 (corrected): on reaching `[` immediately followed by `*`, the scanner
searches for the first occurrence of `*]` starting at the `[` itself — not
strictly after the opening marker, so the occurrence may overlap the opener
by sharing its `*` — and, when one exists at offset `k` of the suffix,
advances the cursor to immediately after it, emitting no token.  In
particular `[*]` contains such an occurrence at offset 1 and is a completed
comment (scanned to the empty token sequence), not an unterminated one. -/
theorem C4_comment_scan :
    (∀ (s : List Char) (fuel p k : Nat) (acc : List Token),
      s[p]? = some '[' → s[p + 1]? = some '*' →
      findPair '*' ']' (s.drop p) = some k →
      lexerLoop s (fuel + 1) p acc = lexerLoop s fuel (p + k + 2) acc ∧
        (s.drop p)[k]? = some '*' ∧ (s.drop p)[k + 1]? = some ']' ∧
        ∀ j, j < k → ¬ ((s.drop p)[j]? = some '*' ∧ (s.drop p)[j + 1]? = some ']')) ∧
    lexer ['[', '*', ']'] 2 = .ok [] := by
  constructor
  · intro s fuel p k acc h1 h2 hf
    obtain ⟨ha, hb, hmin⟩ := findPair_eq_some hf
    exact ⟨lexerLoop_succ_next (lexStep_comment_found h1 h2 hf), ha, hb, hmin⟩
  · decide

theorem C4_counterexample :
    lexer ['[', '*', ']'] 2 = .ok [] ∧
    lexer ['[', '*', ']'] 2 ≠ .fail .unterminatedComment :=
  ⟨by decide, by decide⟩

theorem C4_witness :
    lexerLoop ['[', '*', ']'] (1 + 1) 0 [] = lexerLoop ['[', '*', ']'] 1 (0 + 1 + 2) [] ∧
    (List.drop 0 ['[', '*', ']'])[1]? = some '*' ∧
    (List.drop 0 ['[', '*', ']'])[1 + 1]? = some ']' :=
  let h := C4_comment_scan.1 ['[', '*', ']'] 1 0 1 [] (by decide) (by decide) (by decide)
  ⟨h.1, h.2.1, h.2.2.1⟩

/-- C6: when the current character is a letter, the maximal run of
alphanumeric-or-underscore characters is consumed as a single token, tagged
keyword exactly when the lexeme is (case-sensitively) a member of the fixed
keyword table and identifier otherwise. -/
theorem C6_keyword_vs_identifier (s : List Char) (fuel p : Nat) (acc : List Token)
    (c : Char) (h : s[p]? = some c) (hl : is_letter c = true) :
    lexerLoop s (fuel + 1) p acc =
      lexerLoop s fuel (p + (get_identifier s p).length)
        (acc ++ [⟨if get_identifier s p ∈ keywords then .keyword else .identifier,
                 get_identifier s p⟩]) :=
  lexerLoop_succ_next (lexStep_letter h hl)

theorem C6_witness :
    lexerLoop "integer".toList (1 + 1) 0 [] = .ok [⟨.keyword, "integer".toList⟩] ∧
    lexerLoop "integerX".toList (1 + 1) 0 [] = .ok [⟨.identifier, "integerX".toList⟩] :=
  ⟨(C6_keyword_vs_identifier "integer".toList 1 0 [] 'i' (by decide) (by decide)).trans
     (by decide),
   (C6_keyword_vs_identifier "integerX".toList 1 0 [] 'i' (by decide) (by decide)).trans
     (by decide)⟩

/-- C7: when the current character is a digit, the number branch consumes
the `get_number` lexeme as a single token, tagged real exactly when the
consumed-decimal-point flag is set and integer otherwise; and the flag is
set exactly when the lexeme contains the decimal point. -/
theorem C7_number_classification (s : List Char) (fuel p : Nat) (acc : List Token)
    (c : Char) (h : s[p]? = some c) (hd : is_digit c = true) :
    (lexerLoop s (fuel + 1) p acc =
      lexerLoop s fuel (p + (get_number s p).1.length)
        (acc ++ [⟨if (get_number s p).2 then .real else .integer,
                 (get_number s p).1⟩])) ∧
    ((get_number s p).2 = true ↔ '.' ∈ (get_number s p).1) := by
  refine ⟨lexerLoop_succ_next (lexStep_digit h hd), ?_⟩
  simp only [get_number]
  split
  · simp
  · constructor
    · intro hf; exact Bool.noConfusion hf
    · intro hmem
      exact absurd (List.mem_takeWhile_imp hmem) (by decide)

theorem C7_witness :
    lexerLoop "123".toList (1 + 1) 0 [] = .ok [⟨.integer, "123".toList⟩] ∧
    lexerLoop "123.45".toList (1 + 1) 0 [] = .ok [⟨.real, "123.45".toList⟩] ∧
    lexerLoop "123.".toList (1 + 1) 0 [] = .ok [⟨.real, "123.".toList⟩] :=
  ⟨((C7_number_classification "123".toList 1 0 [] '1' (by decide) (by decide)).1).trans
     (by decide),
   ((C7_number_classification "123.45".toList 1 0 [] '1' (by decide) (by decide)).1).trans
     (by decide),
   ((C7_number_classification "123.".toList 1 0 [] '1' (by decide) (by decide)).1).trans
     (by decide)⟩

/-- C5: at a position whose character is the first character of some
operator, when the two-character slice at that position is itself a member
of the operator table (and two characters are available), that slice is
emitted as a single operator token and the cursor advances past both of its
characters. -/
theorem C5_operator_greedy (s : List Char) (fuel p : Nat) (acc : List Token) (c : Char)
    (h : s[p]? = some c)
    (hop : operators.any (fun op => op.head? == some c) = true)
    (h2 : (s.drop p).take 2 ∈ operators) (hlen : p + 1 < s.length) :
    lexerLoop s (fuel + 1) p acc =
      lexerLoop s fuel (p + 2) (acc ++ [⟨.operator, (s.drop p).take 2⟩]) := by
  have hfour : c.isWhitespace = false ∧ is_letter c = false ∧ is_digit c = false ∧
      c ≠ '[' := by
    obtain ⟨op, hmem, hhead⟩ := List.any_eq_true.mp hop
    fin_cases hmem <;>
      (simp only [List.head?_cons, beq_iff_eq, Option.some.injEq] at hhead;
       subst hhead; decide)
  obtain ⟨hw, hl, hd, hbr⟩ := hfour
  have hgo : get_operator s p = (s.drop p).take 2 := by
    unfold get_operator; rw [if_pos h2]
  have hlen2 : ((s.drop p).take 2).length = 2 := by
    rw [List.length_take, List.length_drop]
    omega
  have hstep := @lexStep_op s p acc c h hw hbr hl hd hop
  rw [hgo, hlen2] at hstep
  exact lexerLoop_succ_next hstep

theorem C5_witness :
    lexerLoop ['<', '='] (1 + 1) 0 [] = .ok [⟨.operator, ['<', '=']⟩] :=
  (C5_operator_greedy ['<', '='] 1 0 [] '<' (by decide) (by decide) (by decide)
    (by decide)).trans (by decide)

/-- C9: a `-` character is always emitted as an operator token whose lexeme
is exactly `-`, also when a digit follows, so a minus sign is never made
part of a numeric lexeme. -/
theorem C9_minus_is_operator (s : List Char) (fuel p : Nat) (acc : List Token)
    (h : s[p]? = some '-') :
    lexerLoop s (fuel + 1) p acc =
      lexerLoop s fuel (p + 1) (acc ++ [⟨.operator, ['-']⟩]) := by
  have hgo : get_operator s p = ['-'] := by
    unfold get_operator
    rw [drop_cons_of_get h]
    cases htl : s.drop (p + 1) with
    | nil => decide
    | cons d tl =>
      have hnotin : ('-' :: d :: tl).take 2 ∉ operators := by
        intro hmem
        simp only [List.take_succ_cons, List.take_zero, operators, List.mem_cons,
          List.not_mem_nil, or_false] at hmem
        rcases hmem with hx | hx | hx | hx | hx | hx | hx | hx | hx | hx | hx <;> simp at hx
      rw [if_neg hnotin]
      simp only [List.take_succ_cons, List.take_zero]
      rw [if_pos (by decide : (['-'] : List Char) ∈ operators)]
  have hstep := @lexStep_op s p acc '-' h (by decide) (by decide) (by decide) (by decide)
    (by decide)
  rw [hgo] at hstep
  simp only [List.length_singleton] at hstep
  exact lexerLoop_succ_next hstep

theorem C9_witness :
    lexerLoop ['-', '5'] (2 + 1) 0 [] =
      .ok [⟨.operator, ['-']⟩, ⟨.integer, ['5']⟩] :=
  (C9_minus_is_operator ['-', '5'] 2 0 [] (by decide)).trans (by decide)

/-- C10: a maximal digit run immediately followed by a letter (no decimal
point intervening) produces two adjacent tokens: the integer token for the
digit run, then the identifier-or-keyword token starting at the letter; the
digits are never absorbed into the identifier. -/
theorem C10_digits_then_letter (s : List Char) (fuel p : Nat) (acc : List Token)
    (c c2 : Char) (h : s[p]? = some c) (hd : is_digit c = true)
    (hq : s[p + ((s.drop p).takeWhile is_digit).length]? = some c2)
    (hl : is_letter c2 = true) :
    lexerLoop s (fuel + 1 + 1) p acc =
      lexerLoop s fuel
        (p + ((s.drop p).takeWhile is_digit).length +
          (get_identifier s (p + ((s.drop p).takeWhile is_digit).length)).length)
        (acc ++ [⟨.integer, (s.drop p).takeWhile is_digit⟩,
                 ⟨if get_identifier s (p + ((s.drop p).takeWhile is_digit).length) ∈ keywords
                     then .keyword else .identifier,
                  get_identifier s (p + ((s.drop p).takeWhile is_digit).length)⟩]) := by
  have hne : ¬ ((s.drop (p + ((s.drop p).takeWhile is_digit).length)).head? = some '.') := by
    rw [drop_cons_of_get hq, List.head?_cons]
    intro hcc
    injection hcc with hcc2
    exact absurd (hcc2 ▸ hl) (by decide)
  have hnum : get_number s p = ((s.drop p).takeWhile is_digit, false) := by
    simp only [get_number]
    rw [if_neg hne]
  have hstep1 := @lexStep_digit s p acc c h hd
  rw [hnum] at hstep1
  simp only [Bool.false_eq_true, if_false] at hstep1
  calc lexerLoop s (fuel + 1 + 1) p acc
      = lexerLoop s (fuel + 1) (p + ((s.drop p).takeWhile is_digit).length)
          (acc ++ [⟨.integer, (s.drop p).takeWhile is_digit⟩]) :=
        lexerLoop_succ_next hstep1
    _ = lexerLoop s fuel
          (p + ((s.drop p).takeWhile is_digit).length +
            (get_identifier s (p + ((s.drop p).takeWhile is_digit).length)).length)
          ((acc ++ [⟨.integer, (s.drop p).takeWhile is_digit⟩]) ++
           [⟨if get_identifier s (p + ((s.drop p).takeWhile is_digit).length) ∈ keywords
               then .keyword else .identifier,
             get_identifier s (p + ((s.drop p).takeWhile is_digit).length)⟩]) :=
        lexerLoop_succ_next (lexStep_letter hq hl)
    _ = _ := by rw [List.append_assoc, List.singleton_append]

theorem C10_witness :
    lexerLoop "123abc".toList (1 + 1 + 1) 0 [] =
      .ok [⟨.integer, ['1', '2', '3']⟩, ⟨.identifier, ['a', 'b', 'c']⟩] :=
  (C10_digits_then_letter "123abc".toList 1 0 [] '1' 'a' (by decide) (by decide)
    (by decide) (by decide)).trans (by decide)

/-- On the one-character input `@` the loop repeats the same state forever:
no branch recognizes `@`, and the cursor is not advanced. -/
lemma stuck_at_sign : ∀ (fuel : Nat) (acc : List Token),
    lexerLoop ['@'] fuel 0 acc = .outOfFuel
  | 0, _ => rfl
  | fuel + 1, acc => by
    have hstep : lexStep ['@'] 0 acc = .next 0 acc := rfl
    rw [lexerLoop_succ_next hstep]
    exact stuck_at_sign fuel acc

/-- Every operator lexeme is whitespace-free. -/
lemma operators_not_ws : ∀ L ∈ operators, ∀ c ∈ L, c.isWhitespace = false := by decide

/-- The length of a `takeWhile` prefix is at most the list's length. -/
lemma length_takeWhile_le (q : Char → Bool) (l : List Char) :
    (l.takeWhile q).length ≤ l.length :=
  (List.takeWhile_sublist q).length_le

/-- One recognized token step of the reconstruction argument: consuming a
non-empty whitespace-free lexeme that prefixes the remaining input extends
the reconstruction of the rest. -/
lemma loop_good_token_step (s : List Char) (m p : Nat) (acc : List Token) (tok : Token)
    (hstep : lexStep s p acc = .next (p + tok.lexeme.length) (acc ++ [tok]))
    (hpre : s.drop p = tok.lexeme ++ s.drop (p + tok.lexeme.length))
    (hnws : ∀ ch ∈ tok.lexeme, ch.isWhitespace = false)
    (ihres : ∃ toks, lexerLoop s m (p + tok.lexeme.length) (acc ++ [tok]) =
        .ok ((acc ++ [tok]) ++ toks) ∧
      concatLexemes toks =
        (s.drop (p + tok.lexeme.length)).filter (fun ch => !ch.isWhitespace)) :
    ∃ toks, lexerLoop s (m + 1) p acc = .ok (acc ++ toks) ∧
      concatLexemes toks = (s.drop p).filter (fun ch => !ch.isWhitespace) := by
  obtain ⟨toks, h1, h2⟩ := ihres
  refine ⟨tok :: toks, ?_, ?_⟩
  · rw [lexerLoop_succ_next hstep, h1, List.append_assoc, List.singleton_append]
  · rw [hpre]
    cases tok with
    | mk cat L => exact concat_extend cat L _ toks hnws h2

/-- Core reconstruction invariant: from any position of a text whose
characters are all recognized, enough fuel yields a normal exit whose new
tokens spell the non-whitespace remainder of the text. -/
lemma loop_good (s : List Char) (hg : ∀ c ∈ s, goodChar c = true) :
    ∀ (n p : Nat) (acc : List Token), s.length - p < n →
      ∃ toks, lexerLoop s n p acc = .ok (acc ++ toks) ∧
        concatLexemes toks = (s.drop p).filter (fun c => !c.isWhitespace) := by
  intro n
  induction n with
  | zero => intro p acc h; omega
  | succ m ih =>
    intro p acc hfuel
    cases hget : s[p]? with
    | none =>
      refine ⟨[], by rw [lexerLoop_succ_done hget, List.append_nil], ?_⟩
      have hlen : s.length ≤ p := by
        by_contra hlt
        push_neg at hlt
        rw [List.getElem?_eq_getElem hlt] at hget
        exact Option.noConfusion hget
      rw [List.drop_eq_nil_of_le hlen]
      rfl
    | some c =>
      have hgc : goodChar c = true := hg c (List.getElem?_mem hget)
      have hplen : p < s.length := by
        by_contra hge
        push_neg at hge
        rw [List.getElem?_eq_none hge] at hget
        exact Option.noConfusion hget
      have hdropc := drop_cons_of_get hget
      cases hw : c.isWhitespace with
      | true =>
        obtain ⟨toks, h1, h2⟩ := ih (p + 1) acc (by omega)
        refine ⟨toks, by rw [lexerLoop_succ_next (lexStep_ws hget hw)]; exact h1, ?_⟩
        rw [hdropc, List.filter_cons_of_neg (by simp [hw])]
        exact h2
      | false =>
      cases hl : is_letter c with
      | true =>
        have hLne : get_identifier s p ≠ [] := get_identifier_ne_nil hget hl
        have hL1 : 1 ≤ (get_identifier s p).length :=
          List.length_pos.mpr hLne
        have hLle : (get_identifier s p).length ≤ s.length - p := by
          have h0 := length_takeWhile_le idChar (s.drop p)
          rw [List.length_drop] at h0
          exact h0
        refine loop_good_token_step s m p acc
          ⟨if get_identifier s p ∈ keywords then .keyword else .identifier,
           get_identifier s p⟩
          (@lexStep_letter s p acc c hget hl)
          (drop_decomp_takeWhile idChar s p)
          (fun ch hch => not_ws_of_idChar ch (List.mem_takeWhile_imp hch))
          (ih (p + (get_identifier s p).length) _ (by omega))
      | false =>
      cases hd : is_digit c with
      | true =>
        have hne : ¬ ((s.drop (p + ((s.drop p).takeWhile is_digit).length)).head? =
            some '.') := by
          intro hcc
          cases hrest : s.drop (p + ((s.drop p).takeWhile is_digit).length) with
          | nil => rw [hrest] at hcc; exact Option.noConfusion hcc
          | cons d tl =>
            rw [hrest, List.head?_cons] at hcc
            injection hcc with hd2
            subst hd2
            have hmem : '.' ∈ s := by
              refine List.drop_subset (p + ((s.drop p).takeWhile is_digit).length) s ?_
              rw [hrest]
              exact List.mem_cons_self '.' tl
            exact absurd (hg '.' hmem) (by decide)
        have hnum : get_number s p = ((s.drop p).takeWhile is_digit, false) := by
          simp only [get_number]
          rw [if_neg hne]
        have hstep := @lexStep_digit s p acc c hget hd
        rw [hnum] at hstep
        simp only [Bool.false_eq_true, if_false] at hstep
        have hLne : (s.drop p).takeWhile is_digit ≠ [] := by
          rw [hdropc, List.takeWhile_cons_of_pos hd]
          simp
        have hL1 : 1 ≤ ((s.drop p).takeWhile is_digit).length :=
          List.length_pos.mpr hLne
        have hLle : ((s.drop p).takeWhile is_digit).length ≤ s.length - p := by
          have h0 := length_takeWhile_le is_digit (s.drop p)
          rw [List.length_drop] at h0
          exact h0
        refine loop_good_token_step s m p acc
          ⟨.integer, (s.drop p).takeWhile is_digit⟩ hstep
          (drop_decomp_takeWhile is_digit s p)
          (fun ch hch => not_ws_of_digit ch (List.mem_takeWhile_imp hch))
          (ih (p + ((s.drop p).takeWhile is_digit).length) _ (by omega))
      | false =>
      have hl' : c.isAlpha = false := hl
      have hd' : c.isDigit = false := hd
      have hoc : (['+', '-', '*', '/', '=', '<', '>'].contains c ||
          ['(', ')', '\x7b', '\x7d', ',', ';'].contains c) = true := by
        simp only [goodChar, hw, hl', hd', Bool.false_or] at hgc
        exact hgc
      cases hoc1 : ['+', '-', '*', '/', '=', '<', '>'].contains c with
      | true =>
        have hcmem : c ∈ ['+', '-', '*', '/', '=', '<', '>'] :=
          List.mem_of_elem_eq_true hoc1
        have hbr : c ≠ '[' := by fin_cases hcmem <;> decide
        have hopany : operators.any (fun op => op.head? == some c) = true := by
          fin_cases hcmem <;> decide
        have hstep := @lexStep_op s p acc c hget hw hbr hl hd hopany
        by_cases h2 : (s.drop p).take 2 ∈ operators
        · have hgo : get_operator s p = (s.drop p).take 2 := by
            unfold get_operator
            rw [if_pos h2]
          rw [hgo] at hstep
          have hLne : (s.drop p).take 2 ≠ [] := by
            rw [hdropc, List.take_succ_cons]
            simp
          have hL1 : 1 ≤ ((s.drop p).take 2).length := List.length_pos.mpr hLne
          have hLle : ((s.drop p).take 2).length ≤ s.length - p := by
            rw [List.length_take, List.length_drop]
            omega
          refine loop_good_token_step s m p acc
            ⟨.operator, (s.drop p).take 2⟩ hstep
            (drop_decomp_take s p 2)
            (fun ch hch => operators_not_ws _ h2 ch hch)
            (ih (p + ((s.drop p).take 2).length) _ (by omega))
        · have h1m : (s.drop p).take 1 ∈ operators := by
            rw [hdropc, List.take_succ_cons, List.take_zero]
            fin_cases hcmem <;> decide
          have hgo : get_operator s p = (s.drop p).take 1 := by
            unfold get_operator
            rw [if_neg h2, if_pos h1m]
          rw [hgo] at hstep
          have hLne : (s.drop p).take 1 ≠ [] := by
            rw [hdropc, List.take_succ_cons]
            simp
          have hL1 : 1 ≤ ((s.drop p).take 1).length := List.length_pos.mpr hLne
          have hLle : ((s.drop p).take 1).length ≤ s.length - p := by
            rw [List.length_take, List.length_drop]
            omega
          refine loop_good_token_step s m p acc
            ⟨.operator, (s.drop p).take 1⟩ hstep
            (drop_decomp_take s p 1)
            (fun ch hch => operators_not_ws _ h1m ch hch)
            (ih (p + ((s.drop p).take 1).length) _ (by omega))
      | false =>
        have hoc2 : ['(', ')', '\x7b', '\x7d', ',', ';'].contains c = true := by
          rw [hoc1] at hoc
          simpa using hoc
        have hcmem : c ∈ ['(', ')', '\x7b', '\x7d', ',', ';'] :=
          List.mem_of_elem_eq_true hoc2
        have hbr : c ≠ '[' := by fin_cases hcmem <;> decide
        have hopno : operators.any (fun op => op.head? == some c) = false := by
          fin_cases hcmem <;> decide
        have hsep : [c] ∈ separators := by
          fin_cases hcmem <;> decide
        have hstep := @lexStep_sep s p acc c hget hw hbr hl hd hopno hsep
        have hnws : ∀ ch ∈ [c], ch.isWhitespace = false := by
          intro ch hch
          simp only [List.mem_singleton] at hch
          subst hch
          exact hw
        refine loop_good_token_step s m p acc ⟨.separator, [c]⟩ hstep ?_ hnws
          (ih (p + 1) _ (by omega))
        rw [hdropc]
        rfl

/-- C1 (corrected): for every source text all of whose characters the
scanner recognizes — whitespace, letters, digits, the seven operator head
characters that are complete operators by themselves, and the separators
(such a text in particular contains no comment markers) — the scan
terminates, and the concatenation of the lexemes of the returned token
sequence, in order, equals the input text with its whitespace characters
removed. -/
theorem C1_terminates_and_reconstructs (s : List Char)
    (hg : ∀ c ∈ s, goodChar c = true) :
    Terminates s ∧
    ∃ toks, lexer s (s.length + 1) = .ok toks ∧
      concatLexemes toks = s.filter (fun c => !c.isWhitespace) := by
  obtain ⟨toks, h1, h2⟩ := loop_good s hg (s.length + 1) 0 [] (by omega)
  rw [List.nil_append] at h1
  refine ⟨⟨s.length + 1, ?_⟩, toks, h1, ?_⟩
  · intro hbad
    rw [lexer] at hbad
    rw [h1] at hbad
    exact LexResult.noConfusion hbad
  · rw [List.drop_zero] at h2
    exact h2

theorem C1_counterexample :
    hasCommentMarker ['@'] = false ∧ ¬ Terminates ['@'] :=
  ⟨by decide, fun ⟨fuel, hf⟩ => hf (stuck_at_sign fuel [])⟩

theorem C1_witness :
    Terminates "a1 <= (b);".toList ∧
    ∃ toks, lexer "a1 <= (b);".toList ("a1 <= (b);".toList.length + 1) = .ok toks ∧
      concatLexemes toks = "a1 <= (b);".toList.filter (fun c => !c.isWhitespace) :=
  C1_terminates_and_reconstructs "a1 <= (b);".toList (by decide)
